import Mathlib

/-!
Verification development for the segmentation-and-chunking engine of the
Data_Processing repository (source: `src/scripts/5_segment_and_chunk.py`).

Text is modelled as `List Char`.  The external tiktoken tokenizer is modelled
as an abstract pair of `encode`/`decode` maps (`Tokenizer`); the spaCy
sentence-boundary model is modelled as an abstract function
`nlp : List Char → List (List Char)` returning the raw sentence texts of a
window, and the sentence stream consumed by the chunk assembler is modelled by
an abstract `sents : List Char → List (List Char)` (the output of
`split_into_sentences` applied to a prose span, sentence texts already
stripped as the source does).  All functions are translated statement by
statement from the Python source.
-/

/-- Kind of a span produced by `preprocess_text`: prose (`text`) or a fenced
verbatim block (`code`). -/
inductive SegKind where
  | text
  | code
deriving DecidableEq, Repr

/-- Abstract deterministic tokenizer (models `tiktoken.get_encoding("cl100k_base")`). -/
structure Tokenizer where
  encode : List Char → List Nat
  decode : List Nat → List Char

/-- Concrete character-level instance of the Token Counter contract, used for
concrete runs: every character is one token. -/
def charTok : Tokenizer :=
  { encode := fun s => s.map Char.toNat
    decode := fun l => l.map Char.ofNat }

/-- Python `str.strip()` on the left: drop leading whitespace. -/
def lstrip (s : List Char) : List Char := s.dropWhile Char.isWhitespace

/-- Python `str.strip()`: drop leading and trailing whitespace. -/
def strip (s : List Char) : List Char :=
  ((s.dropWhile Char.isWhitespace).reverse.dropWhile Char.isWhitespace).reverse

/-- An emitted chunk: the dict `{"text": ..., "token_count": ...}` built by
`chunk_segments`. -/
structure Chunk where
  text : List Char
  token_count : Nat
deriving DecidableEq, Repr

/-- Loop state of `chunk_segments`: the chunks emitted so far and the
accumulator variables `current_chunk` / `current_tokens`. -/
structure ChunkState where
  chunks : List Chunk
  current_chunk : List Char
  current_tokens : Nat
deriving DecidableEq, Repr

/-- Body of the `segment_type == 'code'` branch of `chunk_segments`
(lines 96-108): flush without overlap when over budget and nonempty, then
append the verbatim segment after a newline. -/
def processCode (tok : Tokenizer) (max_tokens : Nat) (st : ChunkState)
    (segment : List Char) : ChunkState :=
  let segment_tokens := (tok.encode segment).length
  if max_tokens < st.current_tokens + segment_tokens ∧ st.current_chunk ≠ [] then
    { chunks := st.chunks ++ [⟨strip st.current_chunk, st.current_tokens⟩]
      current_chunk := '\n' :: segment
      current_tokens := segment_tokens }
  else
    { chunks := st.chunks
      current_chunk := st.current_chunk ++ '\n' :: segment
      current_tokens := st.current_tokens + segment_tokens }

/-- Body of the per-sentence loop of `chunk_segments` (lines 111-129): flush
with token-overlap carry when over budget and nonempty, then append the
sentence after a single space.  `encoded_current[-k:]` is `drop (length - k)`
(for `k = 0` both equal the empty slice of an empty encoding). -/
def processSentence (tok : Tokenizer) (max_tokens overlap_tokens : Nat)
    (st : ChunkState) (sentence : List Char) : ChunkState :=
  let sentence_tokens := (tok.encode sentence).length
  if max_tokens < st.current_tokens + sentence_tokens ∧ st.current_chunk ≠ [] then
    let overlap_text :=
      if 0 < overlap_tokens then
        let encoded_current := tok.encode st.current_chunk
        let k := min overlap_tokens encoded_current.length
        tok.decode (encoded_current.drop (encoded_current.length - k))
      else []
    { chunks := st.chunks ++ [⟨strip st.current_chunk, st.current_tokens⟩]
      current_chunk := overlap_text ++ ' ' :: sentence
      current_tokens := (tok.encode overlap_text).length + sentence_tokens }
  else
    { chunks := st.chunks
      current_chunk := st.current_chunk ++ ' ' :: sentence
      current_tokens := st.current_tokens + sentence_tokens }

/-- One iteration of the outer `for segment_type, segment in segments` loop of
`chunk_segments`. -/
def chunkStep (tok : Tokenizer) (sents : List Char → List (List Char))
    (max_tokens overlap_tokens : Nat) (st : ChunkState)
    (seg : SegKind × List Char) : ChunkState :=
  match seg with
  | (SegKind.code, s) => processCode tok max_tokens st s
  | (SegKind.text, s) => (sents s).foldl (processSentence tok max_tokens overlap_tokens) st

/-- The chunk assembler `chunk_segments(segments, max_tokens, overlap_tokens)`
(lines 89-137), parametrised by the tokenizer and by the sentence stream
`sents` that `split_into_sentences` yields for a prose span. -/
def chunk_segments (tok : Tokenizer) (sents : List Char → List (List Char))
    (max_tokens overlap_tokens : Nat)
    (segments : List (SegKind × List Char)) : List Chunk :=
  let final := segments.foldl (chunkStep tok sents max_tokens overlap_tokens) ⟨[], [], 0⟩
  if strip final.current_chunk = [] then final.chunks
  else final.chunks ++ [⟨strip final.current_chunk, final.current_tokens⟩]

/-- The multiset of units (verbatim segments and sentences) fed to the chunk
assembler by a segment stream, in processing order. -/
def unitsOf (sents : List Char → List (List Char))
    (segments : List (SegKind × List Char)) : List (List Char) :=
  (segments.map (fun seg =>
    match seg with
    | (SegKind.code, s) => [s]
    | (SegKind.text, s) => sents s)).flatten

/-- Test whether a list starts with three backticks (the fence marker of the
regex pattern in `preprocess_text`). -/
def isFenceAt : List Char → Bool
  | a :: b :: c :: _ => a = '`' && b = '`' && c = '`'
  | _ => false

/-- Index of the first occurrence of the fence marker, modelling where the
regex scan finds the next three-backtick delimiter. -/
def findFence : List Char → Option Nat
  | [] => none
  | c :: rest => if isFenceAt (c :: rest) then some 0 else (findFence rest).map (· + 1)

/-- The segment preprocessor `preprocess_text(text)` (lines 45-59): the regex
finditer over a lazy fenced-block pattern is realised as: find the first
fence marker, find the first closing marker at least three characters later;
the region between matches is prose (dropped when empty), the matched region
(delimiters included) is code; an unmatched opening fence leaves the whole
remainder as prose. -/
def preprocess_text (t : List Char) : List (SegKind × List Char) :=
  match h1 : findFence t with
  | none => if t = [] then [] else [(SegKind.text, t)]
  | some i =>
    match findFence (t.drop (i + 3)) with
    | none => if t = [] then [] else [(SegKind.text, t)]
    | some j =>
      (if t.take i = [] then [] else [(SegKind.text, t.take i)]) ++
        ((SegKind.code, (t.drop i).take (j + 6)) ::
          preprocess_text (t.drop (i + (j + 6))))
termination_by t.length
decreasing_by
  simp only [List.length_drop]
  have ht : t ≠ [] := by
    intro he
    rw [he] at h1
    simp [findFence] at h1
  have : 0 < t.length := List.length_pos.mpr ht
  omega

/-- Loop state of the windowing loop in `split_into_sentences`. -/
structure SplitState where
  sentences : List (List Char)
  current_start : Nat
deriving DecidableEq, Repr

/-- Helper for Python `str.rfind(' ')`: index of the last space character, if
any.  The accumulator carries the most recent space index seen so far. -/
def rfindSpaceAux : List Char → Nat → Option Nat → Option Nat
  | [], _, acc => acc
  | c :: rest, i, acc => rfindSpaceAux rest (i + 1) (if c = ' ' then some i else acc)

/-- Python `sub_text.rfind(' ')` as an `Option` (`-1` becomes `none`). -/
def rfindSpace (l : List Char) : Option Nat := rfindSpaceAux l 0 none

/-- The window `text[current_start:current_end]` before back-off. -/
def windowSub (text : List Char) (max_length start : Nat) : List Char :=
  (text.drop start).take (min (start + max_length) text.length - start)

/-- One iteration of the `while current_start < text_length` loop of
`split_into_sentences` (lines 71-85): take a window of at most `max_length`
characters, back the boundary off to the last space of the window when the
window does not reach the end of the text and contains a space, run the
boundary model on the window, and strip each resulting sentence. -/
def windowStep (nlp : List Char → List (List Char)) (text : List Char)
    (max_length : Nat) (st : SplitState) : SplitState :=
  let text_length := text.length
  let current_end := min (st.current_start + max_length) text_length
  let sub_text := windowSub text max_length st.current_start
  let p : Nat × List Char :=
    if current_end < text_length then
      match rfindSpace sub_text with
      | some last_space =>
          (st.current_start + last_space, (text.drop st.current_start).take last_space)
      | none => (current_end, sub_text)
    else (current_end, sub_text)
  { sentences := st.sentences ++ (nlp p.2).map strip
    current_start := p.1 }

/-- The windowing loop, with explicit fuel (the source loop is a `while`; the
fuel `text.length + 1` below is enough iterations whenever the loop makes
progress, and models the loop faithfully up to that bound). -/
def splitLoop (nlp : List Char → List (List Char)) (text : List Char)
    (max_length : Nat) : Nat → SplitState → SplitState
  | 0, st => st
  | fuel + 1, st =>
    if st.current_start < text.length then
      splitLoop nlp text max_length fuel (windowStep nlp text max_length st)
    else st

/-- The sentence splitter `split_into_sentences(text, max_length=None)`
(lines 61-87).  Python `max_length or 1000000` maps `none` and `0` to the
default window size. -/
def split_into_sentences (nlp : List Char → List (List Char)) (text : List Char)
    (max_length : Option Nat) : List (List Char) :=
  let ml := match max_length with
    | none => 1000000
    | some m => if m = 0 then 1000000 else m
  (splitLoop nlp text ml (text.length + 1) ⟨[], 0⟩).sentences

/-- A flat file store: pairs of path and content, modelling the output
directory of `segment_text_file`. -/
abbrev FileStore := List (List Char × List Char)

/-- Path lookup, modelling `os.path.exists` / reading a written chunk file. -/
def fsLookup : FileStore → List Char → Option (List Char)
  | [], _ => none
  | (q, v) :: rest, p => if q = p then some v else fsLookup rest p

/-- Output path of chunk number `i` (0-based loop index; the source writes
`f"{base}_chunk_{i+1}.txt"`). -/
def chunkPath (base : List Char) (i : Nat) : List Char :=
  base ++ ['_', 'c', 'h', 'u', 'n', 'k', '_'] ++ Nat.toDigits 10 (i + 1) ++ ['.', 't', 'x', 't']

/-- Writing one chunk file (lines 164-169): skip when the path already
exists, otherwise create it. -/
def writeChunk (fs : FileStore) (path content : List Char) : FileStore :=
  match fsLookup fs path with
  | some _ => fs
  | none => fs ++ [(path, content)]

/-- The chunk-writing loop of `segment_text_file` (lines 160-170). -/
def writeChunksAux (base : List Char) : List Chunk → Nat → FileStore → FileStore
  | [], _, fs => fs
  | c :: cs, i, fs => writeChunksAux base cs (i + 1) (writeChunk fs (chunkPath base i) c.text)

/-- The complete chunk-writing step for one document. -/
def writeChunks (base : List Char) (chunks : List Chunk) (fs : FileStore) : FileStore :=
  writeChunksAux base chunks 0 fs

/-- Tokenizer whose `encode` may fail, modelling a `tiktoken` encode call that
raises on malformed input. -/
structure FTokenizer where
  encode : List Char → Option (List Nat)
  decode : List Nat → List Char

/-- Exception-aware variant of `processCode`: a failing `encode` call
propagates (`none`) exactly as the uncaught Python exception does. -/
def processCodeE (tok : FTokenizer) (max_tokens : Nat) (st : ChunkState)
    (segment : List Char) : Option ChunkState :=
  match tok.encode segment with
  | none => none
  | some es =>
    let segment_tokens := es.length
    some (if max_tokens < st.current_tokens + segment_tokens ∧ st.current_chunk ≠ [] then
      { chunks := st.chunks ++ [⟨strip st.current_chunk, st.current_tokens⟩]
        current_chunk := '\n' :: segment
        current_tokens := segment_tokens }
    else
      { chunks := st.chunks
        current_chunk := st.current_chunk ++ '\n' :: segment
        current_tokens := st.current_tokens + segment_tokens })

/-- Exception-aware variant of `processSentence`; every `tokenizer.encode`
call of the source can propagate a failure. -/
def processSentenceE (tok : FTokenizer) (max_tokens overlap_tokens : Nat)
    (st : ChunkState) (sentence : List Char) : Option ChunkState :=
  match tok.encode sentence with
  | none => none
  | some es =>
    let sentence_tokens := es.length
    if max_tokens < st.current_tokens + sentence_tokens ∧ st.current_chunk ≠ [] then
      match (if 0 < overlap_tokens then
               match tok.encode st.current_chunk with
               | none => none
               | some enc => some (tok.decode (enc.drop (enc.length - min overlap_tokens enc.length)))
             else some []) with
      | none => none
      | some overlap_text =>
        match tok.encode overlap_text with
        | none => none
        | some eo =>
          some { chunks := st.chunks ++ [⟨strip st.current_chunk, st.current_tokens⟩]
                 current_chunk := overlap_text ++ ' ' :: sentence
                 current_tokens := eo.length + sentence_tokens }
    else
      some { chunks := st.chunks
             current_chunk := st.current_chunk ++ ' ' :: sentence
             current_tokens := st.current_tokens + sentence_tokens }

/-- Exception-aware fold over the sentences of a prose span. -/
def foldSentE (tok : FTokenizer) (max_tokens overlap_tokens : Nat) :
    List (List Char) → ChunkState → Option ChunkState
  | [], st => some st
  | s :: ss, st =>
    match processSentenceE tok max_tokens overlap_tokens st s with
    | none => none
    | some st' => foldSentE tok max_tokens overlap_tokens ss st'

/-- Exception-aware outer loop of `chunk_segments`. -/
def chunkLoopE (tok : FTokenizer) (sents : List Char → List (List Char))
    (max_tokens overlap_tokens : Nat) :
    List (SegKind × List Char) → ChunkState → Option ChunkState
  | [], st => some st
  | (SegKind.code, s) :: rest, st =>
    match processCodeE tok max_tokens st s with
    | none => none
    | some st' => chunkLoopE tok sents max_tokens overlap_tokens rest st'
  | (SegKind.text, s) :: rest, st =>
    match foldSentE tok max_tokens overlap_tokens (sents s) st with
    | none => none
    | some st' => chunkLoopE tok sents max_tokens overlap_tokens rest st'

/-- Exception-aware `chunk_segments`: `none` means the Python call raised. -/
def chunkSegmentsE (tok : FTokenizer) (sents : List Char → List (List Char))
    (max_tokens overlap_tokens : Nat)
    (segments : List (SegKind × List Char)) : Option (List Chunk) :=
  match chunkLoopE tok sents max_tokens overlap_tokens segments ⟨[], [], 0⟩ with
  | none => none
  | some final =>
    some (if strip final.current_chunk = [] then final.chunks
          else final.chunks ++ [⟨strip final.current_chunk, final.current_tokens⟩])

/-- The per-document pipeline of `segment_text_file` (lines 139-181) on one
document body: preprocess, chunk with the source constants
`max_tokens = 3000`, `overlap_tokens = 200`, and write the chunks; the
catch-all `except Exception` handler (lines 180-181) turns any raised
exception into a log entry and leaves the output store untouched. -/
def segment_text_file (tok : FTokenizer) (sents : List Char → List (List Char))
    (base docText : List Char) (fs : FileStore) : FileStore :=
  match chunkSegmentsE tok sents 3000 200 (preprocess_text docText) with
  | none => fs
  | some chunks => writeChunks base chunks fs

/-- Units joined the way the sentence loop joins them: one space before each
sentence. -/
def joinSp (ss : List (List Char)) : List Char := (ss.map (fun s => ' ' :: s)).flatten

/-- Units joined the way the verbatim branch joins them: one newline before
each verbatim segment. -/
def joinNl (ss : List (List Char)) : List Char := (ss.map (fun s => '\n' :: s)).flatten

/-- Occurrence of `u` as a contiguous substring of `l`. -/
def occursIn (u l : List Char) : Prop := ∃ p q, p ++ u ++ q = l

/-- Sentence oracle used by the C1 counterexample run. -/
def sentsC1 : List Char → List (List Char) := fun _ => [['a','a','a','a'], ['b','b','b','b'], ['c']]

/-- A single prose segment; its sentences come from the sentence oracle. -/
def segsT : List (SegKind × List Char) := [(SegKind.text, ['x'])]

/-- Sentence oracle used by the C2 counterexample run. -/
def sentsC2 : List Char → List (List Char) := fun _ => [['a','a','a','a']]

/-- Segment stream for the C2 counterexample: a prose span followed by a
verbatim block whose arrival triggers a flush. -/
def segsC2 : List (SegKind × List Char) :=
  [(SegKind.text, ['x']), (SegKind.code, ['`','`','`','b','b','b','b','`','`','`'])]

/-- Sentence oracle used by the C3 counterexample run. -/
def sentsC3 : List Char → List (List Char) := fun _ => [['a','b'], ['c','d'], ['e','f']]

/-- Sentence oracle used by the C5 counterexample run. -/
def sentsC5 : List Char → List (List Char) := fun _ => [['a'], ['b']]

/-- Segment stream of two verbatim blocks, both fitting one budget. -/
def segsC9 : List (SegKind × List Char) :=
  [(SegKind.code, ['`','`','`','a','`','`','`']), (SegKind.code, ['`','`','`','b','`','`','`'])]

/-- Trivial boundary model: the whole window is one sentence. -/
def nlp0 : List Char → List (List Char) := fun s => [s]

/-- Input on which the window loop stalls: after the first back-off the next
window starts at the space, and that space is the only one it contains. -/
def textC8 : List Char := ['a','b',' ','c','d','e','f','g','h']

/-- A word longer than the window size, with no space anywhere. -/
def textC7 : List Char := ['a','b','c','d']

/-- Window input `ab cd` whose first window contains a space, for the C7
witness. -/
def textC7w : List Char := ['a', 'b', ' ', 'c', 'd']

/-- Fallible tokenizer failing exactly on the fragment `bad`. -/
def ftokC6 : FTokenizer :=
  { encode := fun s => if s = ['b','a','d'] then none else some (s.map Char.toNat)
    decode := fun l => l.map Char.ofNat }

/-- Sentence oracle used by the C6 runs: one healthy unit before and after
the failing one. -/
def sentsC6 : List Char → List (List Char) := fun _ => [['o','k'], ['b','a','d'], ['z']]

/-- Assembler state with a nonempty two-token accumulator, for the C2
witness. -/
def stC2w : ChunkState := ⟨[], ['x', 'y'], 2⟩

/-- Invariant of the assembler loop used for the amended budget bound: all
emitted chunks and the running accumulator stay within
`max_tokens + overlap_tokens`, and an empty accumulator has zero tokens. -/
def ChunkInv (max_tokens overlap_tokens : Nat) (st : ChunkState) : Prop :=
  (∀ c ∈ st.chunks, c.token_count ≤ max_tokens + overlap_tokens) ∧
  st.current_tokens ≤ max_tokens + overlap_tokens ∧
  (st.current_chunk = [] → st.current_tokens = 0)

/-- Predicate used for the unit-integrity invariant: the unit text occurs
whole in an already-emitted chunk or in the running accumulator. -/
def placedIn (u : List Char) (st : ChunkState) : Prop :=
  (∃ c ∈ st.chunks, occursIn u c.text) ∨ occursIn u st.current_chunk

/-- C1 counterexample: with `max_tokens = 5`, `overlap_tokens = 3` and unit
token counts 4, 4, 1 (all within budget), the middle emitted chunk carries a
3-token overlap plus a 4-token sentence and records `token_count = 7 > 5`,
although it contains no oversized unit — refuting the claim that only chunks
with a single oversized unit may exceed `max_tokens`. -/
theorem c1_counterexample :
    unitsOf sentsC1 segsT = [['a','a','a','a'], ['b','b','b','b'], ['c']] ∧
    (charTok.encode ['a','a','a','a']).length ≤ 5 ∧
    (charTok.encode ['b','b','b','b']).length ≤ 5 ∧
    (charTok.encode ['c']).length ≤ 5 ∧
    chunk_segments charTok sentsC1 5 3 segsT =
      [⟨['a','a','a','a'], 4⟩,
       ⟨['a','a','a',' ','b','b','b','b'], 7⟩,
       ⟨['b','b','b',' ','c'], 4⟩] ∧
    5 < 7 := by decide

/-- C2 counterexample: a flush triggered by a verbatim segment carries no
overlap — the second chunk starts with the backticks of the verbatim block,
not with the decoded 3-token suffix `aaa` of the first chunk, refuting the
claim that every flush carries the decoded token suffix into the next chunk. -/
theorem c2_counterexample :
    chunk_segments charTok sentsC2 5 3 segsC2 =
      [⟨['a','a','a','a'], 4⟩,
       ⟨['`','`','`','b','b','b','b','`','`','`'], 10⟩] ∧
    charTok.decode ((charTok.encode ['`','`','`','b','b','b','b','`','`','`']).take 3) =
      ['`','`','`'] ∧
    charTok.decode ((charTok.encode ['a','a','a','a']).drop 1) = ['a','a','a'] ∧
    (['`','`','`'] : List Char) ≠ ['a','a','a'] := by decide

/-- C3 counterexample: with overlap 3, the unit `cd` appears whole in two
distinct chunks (once as real content, once as carried overlap), refuting the
claim that each unit's text appears whole inside exactly one chunk. -/
theorem c3_counterexample :
    unitsOf sentsC3 segsT = [['a','b'], ['c','d'], ['e','f']] ∧
    chunk_segments charTok sentsC3 4 3 segsT =
      [⟨['a','b',' ','c','d'], 4⟩, ⟨['c','d',' ','e','f'], 5⟩] ∧
    occursIn ['c','d'] ['a','b',' ','c','d'] ∧
    occursIn ['c','d'] ['c','d',' ','e','f'] ∧
    (['a','b',' ','c','d'] : List Char) ≠ ['c','d',' ','e','f'] :=
  ⟨by decide, by decide, ⟨['a','b',' '], [], rfl⟩, ⟨[], [' ','e','f'], rfl⟩, by decide⟩

/-- C9 counterexample: two budget-fitting verbatim segments are joined with
an inserted newline — the emitted text is not the bare concatenation of the
segments, refuting the claim that verbatim segments are appended with no
extra leading whitespace beyond their own content. -/
theorem c9_counterexample :
    chunk_segments charTok sentsC5 100 0 segsC9 =
      [⟨['`','`','`','a','`','`','`','\n','`','`','`','b','`','`','`'], 14⟩] ∧
    (['`','`','`','a','`','`','`','\n','`','`','`','b','`','`','`'] : List Char) ≠
      ['`','`','`','a','`','`','`'] ++ ['`','`','`','b','`','`','`'] := by decide

/-- C5 counterexample: the stored `token_count` is the running sum of unit
token counts and misses the separator space, so it differs from the Token
Counter's count of the stored text (2 versus 3). -/
theorem c5_counterexample :
    chunk_segments charTok sentsC5 10 0 segsT = [⟨['a',' ','b'], 2⟩] ∧
    (charTok.encode ['a',' ','b']).length = 3 ∧
    (2 : Nat) ≠ 3 := by decide

/-- C6 counterexample: when the Token Counter fails to encode the unit `bad`,
`chunk_segments` raises (no chunk list is produced at all) and
`segment_text_file`'s catch-all handler abandons the document, leaving the
output store empty — the failing unit is not treated as zero tokens, its text
is not kept, and the rest of the document is dropped too. -/
theorem c6_counterexample :
    chunkSegmentsE ftokC6 sentsC6 10 0 segsT = none ∧
    segment_text_file ftokC6 sentsC6 ['b'] ['x'] [] = [] := by
  have hp : preprocess_text ['x'] = [(SegKind.text, ['x'])] := by
    rw [preprocess_text]
    rfl
  refine ⟨by decide, ?_⟩
  unfold segment_text_file
  rw [hp]
  decide

/-- C7 counterexample: on a 4-character word with window size 2 the window
contains no space, `rfind` returns `-1`, and the boundary stays at the hard
cut 2 — strictly inside the maximal non-whitespace run, splitting the word. -/
theorem c7_counterexample :
    (windowStep nlp0 textC7 2 ⟨[], 0⟩).current_start = 2 ∧
    textC7.length = 4 ∧ 2 < 4 ∧
    Char.isWhitespace (textC7.getD 1 ' ') = false ∧
    Char.isWhitespace (textC7.getD 2 ' ') = false := by decide

/-- C8: the window loop of `split_into_sentences` does not terminate on
`"ab cdefgh"` with `max_length = 4`.  The first iteration backs the boundary
off to the space at index 2; the next window starts at that space, its only
space is at window offset 0, so `current_end = current_start + 0` and the
loop never advances again — from any state with `current_start = 2` the step
returns `current_start = 2`. -/
theorem c8_nontermination :
    (windowStep nlp0 textC8 4 ⟨[], 0⟩).current_start = 2 ∧
    2 < textC8.length ∧
    ∀ ss : List (List Char), (windowStep nlp0 textC8 4 ⟨ss, 2⟩).current_start = 2 :=
  ⟨by decide, by decide, fun _ => rfl⟩

/-- C4: concatenating the texts of the segments returned by `preprocess_text`,
in order, reconstructs the input text exactly — the preprocessor is a
lossless, non-overlapping, order-preserving partition of the document. -/
theorem c4_losslessness (t : List Char) : ((preprocess_text t).map Prod.snd).flatten = t := by
  induction t using preprocess_text.induct with
  | case1 h => rw [preprocess_text]; rfl
  | case2 x h1 hne =>
    rw [preprocess_text]
    split
    next => simp [hne]
    next i' heq => rw [h1] at heq; exact Option.noConfusion heq
  | case3 i h1 h2 => simp [findFence] at h1
  | case4 x i h1 h2 hne =>
    rw [preprocess_text]
    split
    next => simp [hne]
    next i' heq =>
      rw [h1] at heq
      injection heq with hii
      subst hii
      split
      next => simp [hne]
      next j' heq2 => rw [h2] at heq2; exact Option.noConfusion heq2
  | case5 x i h1 j h2 ih =>
    rw [preprocess_text]
    split
    next heq => rw [h1] at heq; exact Option.noConfusion heq
    next i' heq =>
      rw [h1] at heq
      injection heq with hii
      subst hii
      split
      next heq2 => rw [h2] at heq2; exact Option.noConfusion heq2
      next j' heq2 =>
        rw [h2] at heq2
        injection heq2 with hjj
        subst hjj
        simp only [List.map_append, List.flatten_append, List.map_cons, List.flatten_cons]
        rw [ih]
        have hif : ((if x.take i = [] then [] else [(SegKind.text, x.take i)]).map
            Prod.snd).flatten = x.take i := by
          split
          next hti => exact hti.symm
          next => simp
        rw [hif]
        rw [← List.drop_drop, List.take_append_drop, List.take_append_drop]

theorem fsLookup_append_of_none {fs : FileStore} {p : List Char} (l : FileStore)
    (h : fsLookup fs p = none) : fsLookup (fs ++ l) p = fsLookup l p := by
  induction fs with
  | nil => rfl
  | cons a rest ih =>
    obtain ⟨q, v⟩ := a
    by_cases hq : q = p
    · simp [fsLookup, hq] at h
    · simp only [fsLookup, List.cons_append, if_neg hq] at h ⊢
      exact ih h

theorem fsLookup_append_of_some {fs : FileStore} {p v : List Char} (l : FileStore)
    (h : fsLookup fs p = some v) : fsLookup (fs ++ l) p = some v := by
  induction fs with
  | nil => simp [fsLookup] at h
  | cons a rest ih =>
    obtain ⟨q, w⟩ := a
    by_cases hq : q = p
    · simp only [fsLookup, List.cons_append, if_pos hq] at h ⊢
      exact h
    · simp only [fsLookup, List.cons_append, if_neg hq] at h ⊢
      exact ih h

theorem writeChunk_mono {fs : FileStore} {p v : List Char} (q t : List Char)
    (h : fsLookup fs p = some v) : fsLookup (writeChunk fs q t) p = some v := by
  unfold writeChunk
  cases hq : fsLookup fs q with
  | some w => exact h
  | none => exact fsLookup_append_of_some _ h

theorem writeChunk_self (fs : FileStore) (p t : List Char) :
    ∃ v, fsLookup (writeChunk fs p t) p = some v := by
  unfold writeChunk
  cases hq : fsLookup fs p with
  | some w => exact ⟨w, hq⟩
  | none =>
    refine ⟨t, ?_⟩
    rw [fsLookup_append_of_none _ hq]
    simp [fsLookup]

theorem writeChunk_of_some {fs : FileStore} {p v : List Char} (t : List Char)
    (h : fsLookup fs p = some v) : writeChunk fs p t = fs := by
  unfold writeChunk
  rw [h]

theorem writeChunksAux_mono (base : List Char) :
    ∀ (cs : List Chunk) (i : Nat) (fs : FileStore) (p v : List Char),
      fsLookup fs p = some v → fsLookup (writeChunksAux base cs i fs) p = some v
  | [], _, _, _, _, h => h
  | c :: cs, i, fs, p, v, h =>
    writeChunksAux_mono base cs (i + 1) _ p v (writeChunk_mono _ _ h)

theorem writeChunksAux_idem (base : List Char) (cs : List Chunk) :
    ∀ (i : Nat) (fs : FileStore),
      writeChunksAux base cs i (writeChunksAux base cs i fs) = writeChunksAux base cs i fs := by
  induction cs with
  | nil => intro i fs; rfl
  | cons c cs ih =>
    intro i fs
    simp only [writeChunksAux]
    obtain ⟨v, hv⟩ := writeChunk_self fs (chunkPath base i) c.text
    have hv2 := writeChunksAux_mono base cs (i + 1) _ (chunkPath base i) v hv
    rw [writeChunk_of_some _ hv2]
    exact ih (i + 1) _

/-- C10: the chunk writer is idempotent — every already-present output unit is
left untouched (no overwrite, no error), and running the writer a second time
on the same chunks changes nothing in the store (no duplicate, no altered
unit). -/
theorem c10_idempotent (base : List Char) (cs : List Chunk) (fs : FileStore) :
    (∀ p v, fsLookup fs p = some v → fsLookup (writeChunks base cs fs) p = some v) ∧
    writeChunks base cs (writeChunks base cs fs) = writeChunks base cs fs :=
  ⟨fun p v h => writeChunksAux_mono base cs 0 fs p v h, writeChunksAux_idem base cs 0 fs⟩

/-- C10 witness: a concrete store with one pre-existing file keeps it after a
write pass, and a second identical pass is a no-op. -/
theorem c10_witness :
    fsLookup (writeChunks ['b'] [⟨['x'], 1⟩] [(['p'], ['v'])]) ['p'] = some ['v'] ∧
    writeChunks ['b'] [⟨['x'], 1⟩] (writeChunks ['b'] [⟨['x'], 1⟩] [(['p'], ['v'])]) =
      writeChunks ['b'] [⟨['x'], 1⟩] [(['p'], ['v'])] :=
  ⟨(c10_idempotent ['b'] [⟨['x'], 1⟩] [(['p'], ['v'])]).1 ['p'] ['v'] (by decide),
   (c10_idempotent ['b'] [⟨['x'], 1⟩] [(['p'], ['v'])]).2⟩

theorem rfindSpaceAux_none : ∀ (l : List Char) (i : Nat) (acc : Option Nat),
    rfindSpaceAux l i acc = none → acc = none ∧ ' ' ∉ l := by
  intro l
  induction l with
  | nil => intro i acc h; exact ⟨h, by simp⟩
  | cons c rest ih =>
    intro i acc h
    obtain ⟨h1, h2⟩ := ih (i + 1) _ h
    by_cases hc : c = ' '
    · rw [if_pos hc] at h1; exact Option.noConfusion h1
    · rw [if_neg hc] at h1
      refine ⟨h1, ?_⟩
      intro hm
      rcases List.mem_cons.mp hm with he | hr
      · exact hc he.symm
      · exact h2 hr

theorem rfindSpaceAux_some : ∀ (l : List Char) (i : Nat) (acc : Option Nat) (j : Nat),
    rfindSpaceAux l i acc = some j →
    acc = some j ∨ (i ≤ j ∧ j - i < l.length ∧ l.getD (j - i) 'x' = ' ') := by
  intro l
  induction l with
  | nil => intro i acc j h; exact Or.inl h
  | cons c rest ih =>
    intro i acc j h
    rcases ih (i + 1) _ j h with h1 | ⟨hle, hlt, hget⟩
    · by_cases hc : c = ' '
      · rw [if_pos hc] at h1
        injection h1 with hj
        subst hj
        right
        refine ⟨Nat.le_refl i, by simp, ?_⟩
        simp [hc]
      · rw [if_neg hc] at h1; exact Or.inl h1
    · right
      have hij : i ≤ j := Nat.le_trans (Nat.le_succ i) hle
      refine ⟨hij, ?_, ?_⟩
      · simp only [List.length_cons]; omega
      · have hji : j - i = (j - (i + 1)) + 1 := by omega
        rw [hji]
        simpa using hget

theorem windowStep_start_some (nlp : List Char → List (List Char)) (text : List Char)
    (max_length : Nat) (st : SplitState) (ls : Nat)
    (hlt : st.current_start + max_length < text.length)
    (hrf : rfindSpace (windowSub text max_length st.current_start) = some ls) :
    (windowStep nlp text max_length st).current_start = st.current_start + ls := by
  unfold windowStep
  dsimp only
  rw [Nat.min_eq_left (Nat.le_of_lt hlt), if_pos hlt, hrf]

theorem windowStep_start_none (nlp : List Char → List (List Char)) (text : List Char)
    (max_length : Nat) (st : SplitState)
    (hlt : st.current_start + max_length < text.length)
    (hrf : rfindSpace (windowSub text max_length st.current_start) = none) :
    (windowStep nlp text max_length st).current_start = st.current_start + max_length := by
  unfold windowStep
  dsimp only
  rw [Nat.min_eq_left (Nat.le_of_lt hlt), if_pos hlt, hrf]

theorem getD_windowSub (text : List Char) (ml s k : Nat) (d : Char)
    (h : k < (windowSub text ml s).length) :
    (windowSub text ml s).getD k d = text.getD (s + k) d := by
  unfold windowSub at h ⊢
  rw [List.length_take] at h
  have hk : k < min (s + ml) text.length - s := lt_of_lt_of_le h (Nat.min_le_left _ _)
  rw [List.getD_eq_getD_get?, List.getD_eq_getD_get?, List.get?_eq_getElem?,
      List.get?_eq_getElem?, List.getElem?_take_of_lt hk, List.getElem?_drop]

/-- C7 amended: a window boundary of `split_into_sentences` is backed off to
a space only when the window actually contains a space character — then the
boundary lands exactly on a space; when the window contains no space the
boundary stays at the hard cut `current_start + max_length`, which can fall
inside a word. -/
theorem c7_amended (nlp : List Char → List (List Char)) (text : List Char)
    (max_length : Nat) (st : SplitState)
    (h : st.current_start + max_length < text.length) :
    (' ' ∈ windowSub text max_length st.current_start →
      text.getD (windowStep nlp text max_length st).current_start 'x' = ' ') ∧
    (' ' ∉ windowSub text max_length st.current_start →
      (windowStep nlp text max_length st).current_start = st.current_start + max_length) := by
  constructor
  · intro hsp
    cases hrf : rfindSpace (windowSub text max_length st.current_start) with
    | none =>
      obtain ⟨-, hns⟩ := rfindSpaceAux_none _ 0 none hrf
      exact absurd hsp hns
    | some ls =>
      rcases rfindSpaceAux_some _ 0 none ls hrf with h1 | ⟨-, hlt, hget⟩
      · exact Option.noConfusion h1
      · rw [windowStep_start_some nlp text max_length st ls h hrf]
        simp only [Nat.sub_zero] at hlt hget
        rw [← getD_windowSub text max_length st.current_start ls 'x' hlt]
        exact hget
  · intro hns
    cases hrf : rfindSpace (windowSub text max_length st.current_start) with
    | none => exact windowStep_start_none nlp text max_length st h hrf
    | some ls =>
      rcases rfindSpaceAux_some _ 0 none ls hrf with h1 | ⟨-, hlt, hget⟩
      · exact Option.noConfusion h1
      · simp only [Nat.sub_zero] at hlt hget
        have hmem : ' ' ∈ windowSub text max_length st.current_start := by
          rw [← hget, List.getD_eq_getElem _ _ hlt]
          exact List.getElem_mem hlt
        exact absurd hmem hns


/-- C7 witness: on `ab cd` with window 4 the chosen boundary is a space; on
the spaceless `abcd` with window 2 the boundary is the hard cut at 2. -/
theorem c7_witness :
    textC7w.getD (windowStep nlp0 textC7w 4 ⟨[], 0⟩).current_start 'x' = ' ' ∧
    (windowStep nlp0 textC7 2 ⟨[], 0⟩).current_start = 0 + 2 :=
  ⟨(c7_amended nlp0 textC7w 4 ⟨[], 0⟩ (by decide)).1 (by decide),
   (c7_amended nlp0 textC7 2 ⟨[], 0⟩ (by decide)).2 (by decide)⟩

/-- C2 amended: overlap is carried only by sentence-triggered flushes — when
`overlap_tokens > 0` and a sentence overflows a nonempty accumulator, the next
accumulator starts with the decode of the last
`min(overlap_tokens, encoded length)` tokens of the just-flushed (pre-strip)
accumulator text; a flush triggered by a verbatim segment carries no overlap
at all, restarting from just a newline and the segment.  Because the emitted
chunk text is the stripped accumulator, the stored chunks relate through the
pre-strip text, not through the stored texts themselves. -/
theorem c2_amended (tok : Tokenizer) (max_tokens overlap_tokens : Nat) (st : ChunkState)
    (s seg : List Char)
    (hov : 0 < overlap_tokens)
    (hs : max_tokens < st.current_tokens + (tok.encode s).length)
    (hg : max_tokens < st.current_tokens + (tok.encode seg).length)
    (hacc : st.current_chunk ≠ []) :
    processSentence tok max_tokens overlap_tokens st s =
      { chunks := st.chunks ++ [⟨strip st.current_chunk, st.current_tokens⟩]
        current_chunk :=
          tok.decode ((tok.encode st.current_chunk).drop
            ((tok.encode st.current_chunk).length -
              min overlap_tokens (tok.encode st.current_chunk).length)) ++ ' ' :: s
        current_tokens :=
          (tok.encode (tok.decode ((tok.encode st.current_chunk).drop
            ((tok.encode st.current_chunk).length -
              min overlap_tokens (tok.encode st.current_chunk).length)))).length
          + (tok.encode s).length } ∧
    processCode tok max_tokens st seg =
      { chunks := st.chunks ++ [⟨strip st.current_chunk, st.current_tokens⟩]
        current_chunk := '\n' :: seg
        current_tokens := (tok.encode seg).length } := by
  constructor
  · unfold processSentence
    rw [if_pos ⟨hs, hacc⟩, if_pos hov]
  · unfold processCode
    rw [if_pos ⟨hg, hacc⟩]

/-- C2 witness: a concrete overflowing sentence flush carries the decoded
one-token suffix `y`, while an overflowing verbatim flush carries nothing. -/
theorem c2_witness :
    processSentence charTok 2 1 stC2w ['a'] =
      { chunks := [⟨['x', 'y'], 2⟩]
        current_chunk := ['y', ' ', 'a']
        current_tokens := 2 } ∧
    processCode charTok 2 stC2w ['b'] =
      { chunks := [⟨['x', 'y'], 2⟩]
        current_chunk := ['\n', 'b']
        current_tokens := 1 } := by
  have h := c2_amended charTok 2 1 stC2w ['a'] ['b'] (by decide) (by decide) (by decide) (by decide)
  exact ⟨h.1.trans (by decide), h.2.trans (by decide)⟩

theorem processSentence_noflush (tok : Tokenizer) (max_tokens overlap_tokens : Nat)
    (st : ChunkState) (s : List Char)
    (h : ¬(max_tokens < st.current_tokens + (tok.encode s).length ∧ st.current_chunk ≠ [])) :
    processSentence tok max_tokens overlap_tokens st s =
      ⟨st.chunks, st.current_chunk ++ ' ' :: s, st.current_tokens + (tok.encode s).length⟩ := by
  unfold processSentence
  rw [if_neg h]

theorem processCode_noflush (tok : Tokenizer) (max_tokens : Nat)
    (st : ChunkState) (s : List Char)
    (h : ¬(max_tokens < st.current_tokens + (tok.encode s).length ∧ st.current_chunk ≠ [])) :
    processCode tok max_tokens st s =
      ⟨st.chunks, st.current_chunk ++ '\n' :: s, st.current_tokens + (tok.encode s).length⟩ := by
  unfold processCode
  rw [if_neg h]

theorem foldSent_noflush (tok : Tokenizer) (max_tokens overlap_tokens : Nat) :
    ∀ (ss : List (List Char)) (st : ChunkState),
      st.current_tokens + (ss.map fun s => (tok.encode s).length).sum ≤ max_tokens →
      ss.foldl (processSentence tok max_tokens overlap_tokens) st =
        ⟨st.chunks, st.current_chunk ++ joinSp ss,
         st.current_tokens + (ss.map fun s => (tok.encode s).length).sum⟩ := by
  intro ss
  induction ss with
  | nil =>
    intro st h
    simp [joinSp]
  | cons s ss ih =>
    intro st h
    simp only [List.map_cons, List.sum_cons] at h
    have hnf : ¬(max_tokens < st.current_tokens + (tok.encode s).length ∧
        st.current_chunk ≠ []) := by
      intro hand
      exact absurd hand.1 (by omega)
    rw [List.foldl_cons, processSentence_noflush tok max_tokens overlap_tokens st s hnf,
        ih _ (by dsimp only; omega)]
    simp only [joinSp, List.map_cons, List.flatten_cons, List.sum_cons,
      ChunkState.mk.injEq, List.append_assoc, true_and]
    omega

theorem foldCode_noflush (tok : Tokenizer) (max_tokens : Nat) :
    ∀ (ss : List (List Char)) (st : ChunkState),
      st.current_tokens + (ss.map fun s => (tok.encode s).length).sum ≤ max_tokens →
      ss.foldl (processCode tok max_tokens) st =
        ⟨st.chunks, st.current_chunk ++ joinNl ss,
         st.current_tokens + (ss.map fun s => (tok.encode s).length).sum⟩ := by
  intro ss
  induction ss with
  | nil =>
    intro st h
    simp [joinNl]
  | cons s ss ih =>
    intro st h
    simp only [List.map_cons, List.sum_cons] at h
    have hnf : ¬(max_tokens < st.current_tokens + (tok.encode s).length ∧
        st.current_chunk ≠ []) := by
      intro hand
      exact absurd hand.1 (by omega)
    rw [List.foldl_cons, processCode_noflush tok max_tokens st s hnf, ih _ (by dsimp only; omega)]
    simp only [joinNl, List.map_cons, List.flatten_cons, List.sum_cons,
      ChunkState.mk.injEq, List.append_assoc, true_and]
    omega

/-- C5 amended: the stored `token_count` is the running sum of the per-unit
token counts (plus any re-encoded overlap), not the Token Counter's count of
the stored text: a budget-fitting prose span yields a single chunk whose
`token_count` is exactly the sum of its sentences' token counts while its
text is the space-joined, stripped sentence sequence — the separator spaces
and the stripping are not reflected in the count. -/
theorem c5_amended (tok : Tokenizer) (sents : List Char → List (List Char))
    (max_tokens overlap_tokens : Nat) (seg : List Char)
    (hsum : ((sents seg).map fun s => (tok.encode s).length).sum ≤ max_tokens) :
    chunk_segments tok sents max_tokens overlap_tokens [(SegKind.text, seg)] =
      if strip (joinSp (sents seg)) = [] then []
      else [⟨strip (joinSp (sents seg)),
            ((sents seg).map fun s => (tok.encode s).length).sum⟩] := by
  unfold chunk_segments
  rw [List.foldl_cons, List.foldl_nil]
  rw [show chunkStep tok sents max_tokens overlap_tokens ⟨[], [], 0⟩ (SegKind.text, seg) =
      (sents seg).foldl (processSentence tok max_tokens overlap_tokens) ⟨[], [], 0⟩ from rfl]
  rw [foldSent_noflush tok max_tokens overlap_tokens (sents seg) ⟨[], [], 0⟩
      (by simpa using hsum)]
  simp

/-- C9 amended: each verbatim segment is appended with a single separating
newline before it (not with no extra leading whitespace), and each sentence
with a single separating space before it: a budget-fitting stream of verbatim
segments yields one chunk whose text is the newline-joined, stripped segment
sequence, and a budget-fitting sentence append extends the accumulator with
exactly one space and the sentence. -/
theorem c9_amended (tok : Tokenizer) (sents : List Char → List (List Char))
    (max_tokens overlap_tokens : Nat) (codeSegs : List (List Char))
    (hsum : (codeSegs.map fun s => (tok.encode s).length).sum ≤ max_tokens) :
    chunk_segments tok sents max_tokens overlap_tokens
        (codeSegs.map fun s => (SegKind.code, s)) =
      (if strip (joinNl codeSegs) = [] then []
       else [⟨strip (joinNl codeSegs),
             (codeSegs.map fun s => (tok.encode s).length).sum⟩]) ∧
    ∀ (st : ChunkState) (s : List Char),
      st.current_tokens + (tok.encode s).length ≤ max_tokens →
      processSentence tok max_tokens overlap_tokens st s =
        ⟨st.chunks, st.current_chunk ++ ' ' :: s,
         st.current_tokens + (tok.encode s).length⟩ := by
  constructor
  · unfold chunk_segments
    rw [List.foldl_map]
    rw [show (fun (st : ChunkState) (s : List Char) =>
        chunkStep tok sents max_tokens overlap_tokens st (SegKind.code, s)) =
        (fun st s => processCode tok max_tokens st s) from rfl]
    rw [foldCode_noflush tok max_tokens codeSegs ⟨[], [], 0⟩ (by simpa using hsum)]
    simp
  · intro st s h
    exact processSentence_noflush tok max_tokens overlap_tokens st s
      (fun hand => absurd hand.1 (by omega))

/-- C9 witness: two verbatim blocks join with one newline; a sentence joins
with one space. -/
theorem c9_witness :
    chunk_segments charTok sentsC5 100 0 segsC9 =
      [⟨['`','`','`','a','`','`','`','\n','`','`','`','b','`','`','`'], 14⟩] ∧
    processSentence charTok 100 0 ⟨[], [], 0⟩ ['a'] = ⟨[], [' ', 'a'], 1⟩ := by
  have h := c9_amended charTok sentsC5 100 0
    [['`','`','`','a','`','`','`'], ['`','`','`','b','`','`','`']] (by decide)
  constructor
  · exact h.1.trans (by decide)
  · exact (h.2 ⟨[], [], 0⟩ ['a'] (by decide)).trans (by decide)

/-- C5 witness: concrete no-flush run showing `token_count = 2` for the text
`a b` of 3 tokens. -/
theorem c5_witness :
    chunk_segments charTok sentsC5 10 0 [(SegKind.text, ['x'])] = [⟨['a', ' ', 'b'], 2⟩] :=
  (c5_amended charTok sentsC5 10 0 ['x'] (by decide)).trans (by decide)

theorem inv_processCode (tok : Tokenizer) (max_tokens overlap_tokens : Nat)
    (st : ChunkState) (seg : List Char) (hinv : ChunkInv max_tokens overlap_tokens st)
    (hu : (tok.encode seg).length ≤ max_tokens) :
    ChunkInv max_tokens overlap_tokens (processCode tok max_tokens st seg) := by
  obtain ⟨hc, hT, he⟩ := hinv
  unfold processCode
  by_cases hcond : max_tokens < st.current_tokens + (tok.encode seg).length ∧
      st.current_chunk ≠ []
  · rw [if_pos hcond]
    refine ⟨?_, by dsimp only; omega, ?_⟩
    · intro c hcmem
      rcases List.mem_append.mp hcmem with h | h
      · exact hc c h
      · rw [List.mem_singleton.mp h]
        exact hT
    · intro habs
      exact absurd habs (by simp)
  · rw [if_neg hcond]
    refine ⟨hc, ?_, ?_⟩
    · rcases not_and_or.mp hcond with hA | hB
      · dsimp only; omega
      · have hnilc : st.current_chunk = [] := not_not.mp hB
        have hT0 := he hnilc
        dsimp only; omega
    · intro habs
      exact absurd habs (by simp)

theorem inv_processSentence (tok : Tokenizer) (max_tokens overlap_tokens : Nat)
    (st : ChunkState) (s : List Char) (hinv : ChunkInv max_tokens overlap_tokens st)
    (hu : (tok.encode s).length ≤ max_tokens)
    (hnil : tok.encode [] = [])
    (hre : ∀ l : List Nat, (tok.encode (tok.decode l)).length ≤ l.length) :
    ChunkInv max_tokens overlap_tokens (processSentence tok max_tokens overlap_tokens st s) := by
  obtain ⟨hc, hT, he⟩ := hinv
  unfold processSentence
  by_cases hcond : max_tokens < st.current_tokens + (tok.encode s).length ∧
      st.current_chunk ≠ []
  · rw [if_pos hcond]
    by_cases hov : 0 < overlap_tokens
    · rw [if_pos hov]
      refine ⟨?_, ?_, ?_⟩
      · intro c hcmem
        rcases List.mem_append.mp hcmem with h | h
        · exact hc c h
        · rw [List.mem_singleton.mp h]
          exact hT
      · have h1 := hre ((tok.encode st.current_chunk).drop
          ((tok.encode st.current_chunk).length -
            min overlap_tokens (tok.encode st.current_chunk).length))
        rw [List.length_drop] at h1
        have h2 : min overlap_tokens (tok.encode st.current_chunk).length ≤ overlap_tokens :=
          Nat.min_le_left _ _
        have h3 : min overlap_tokens (tok.encode st.current_chunk).length ≤
            (tok.encode st.current_chunk).length := Nat.min_le_right _ _
        dsimp only
        omega
      · intro habs
        exact absurd habs (by simp)
    · rw [if_neg hov]
      refine ⟨?_, ?_, ?_⟩
      · intro c hcmem
        rcases List.mem_append.mp hcmem with h | h
        · exact hc c h
        · rw [List.mem_singleton.mp h]
          exact hT
      · dsimp only
        rw [hnil]
        simp only [List.length_nil]
        omega
      · intro habs
        exact absurd habs (by simp)
  · rw [if_neg hcond]
    refine ⟨hc, ?_, ?_⟩
    · rcases not_and_or.mp hcond with hA | hB
      · dsimp only; omega
      · have hnilc : st.current_chunk = [] := not_not.mp hB
        have hT0 := he hnilc
        dsimp only; omega
    · intro habs
      exact absurd habs (by simp)

theorem inv_foldSent (tok : Tokenizer) (max_tokens overlap_tokens : Nat)
    (hnil : tok.encode [] = [])
    (hre : ∀ l : List Nat, (tok.encode (tok.decode l)).length ≤ l.length) :
    ∀ (ss : List (List Char)) (st : ChunkState),
      ChunkInv max_tokens overlap_tokens st →
      (∀ s ∈ ss, (tok.encode s).length ≤ max_tokens) →
      ChunkInv max_tokens overlap_tokens
        (ss.foldl (processSentence tok max_tokens overlap_tokens) st) := by
  intro ss
  induction ss with
  | nil => intro st h _; exact h
  | cons s ss ih =>
    intro st h hs
    rw [List.foldl_cons]
    exact ih _ (inv_processSentence tok max_tokens overlap_tokens st s h
      (hs s (List.mem_cons_self s ss)) hnil hre)
      (fun u hu => hs u (List.mem_cons_of_mem s hu))

theorem inv_chunkLoop (tok : Tokenizer) (sents : List Char → List (List Char))
    (max_tokens overlap_tokens : Nat)
    (hnil : tok.encode [] = [])
    (hre : ∀ l : List Nat, (tok.encode (tok.decode l)).length ≤ l.length) :
    ∀ (segments : List (SegKind × List Char)) (st : ChunkState),
      ChunkInv max_tokens overlap_tokens st →
      (∀ u ∈ unitsOf sents segments, (tok.encode u).length ≤ max_tokens) →
      ChunkInv max_tokens overlap_tokens
        (segments.foldl (chunkStep tok sents max_tokens overlap_tokens) st) := by
  intro segments
  induction segments with
  | nil => intro st h _; exact h
  | cons seg rest ih =>
    intro st h hu
    obtain ⟨k, s⟩ := seg
    cases k with
    | code =>
      rw [List.foldl_cons]
      refine ih _ (inv_processCode tok max_tokens overlap_tokens st s h ?_) ?_
      · exact hu s (by simp [unitsOf])
      · intro u humem
        refine hu u ?_
        simp only [unitsOf, List.map_cons, List.flatten_cons] at *
        exact List.mem_append_right _ humem
    | text =>
      rw [List.foldl_cons]
      refine ih _ (inv_foldSent tok max_tokens overlap_tokens hnil hre (sents s) st h ?_) ?_
      · intro u humem
        refine hu u ?_
        simp only [unitsOf, List.map_cons, List.flatten_cons]
        exact List.mem_append_left _ humem
      · intro u humem
        refine hu u ?_
        simp only [unitsOf, List.map_cons, List.flatten_cons] at *
        exact List.mem_append_right _ humem

/-- C1 amended: when every unit of the stream has a token count within
`max_tokens` (and the tokenizer encodes the empty text to no tokens and never
expands a decoded token list on re-encoding), every emitted chunk satisfies
`token_count ≤ max_tokens + overlap_tokens` — the budget can be exceeded by
up to the carried overlap, because the overlap plus the next unit is appended
without a fresh budget check. -/
theorem c1_amended (tok : Tokenizer) (sents : List Char → List (List Char))
    (max_tokens overlap_tokens : Nat) (segments : List (SegKind × List Char))
    (hnil : tok.encode [] = [])
    (hre : ∀ l : List Nat, (tok.encode (tok.decode l)).length ≤ l.length)
    (hunits : ∀ u ∈ unitsOf sents segments, (tok.encode u).length ≤ max_tokens) :
    ∀ c ∈ chunk_segments tok sents max_tokens overlap_tokens segments,
      c.token_count ≤ max_tokens + overlap_tokens := by
  have hinv := inv_chunkLoop tok sents max_tokens overlap_tokens hnil hre segments
    ⟨[], [], 0⟩ ⟨by simp, by simp, fun _ => rfl⟩ hunits
  intro c hmem
  unfold chunk_segments at hmem
  dsimp only at hmem
  split at hmem
  · exact hinv.1 c hmem
  · rcases List.mem_append.mp hmem with h | h
    · exact hinv.1 c h
    · rw [List.mem_singleton.mp h]
      exact hinv.2.1

/-- C1 witness: the concrete run of the C1 counterexample stays within the
amended bound `5 + 3`. -/
theorem c1_witness :
    (chunk_segments charTok sentsC1 5 3 segsT).all (fun c => c.token_count ≤ 5 + 3) = true := by
  have h := c1_amended charTok sentsC1 5 3 segsT rfl (fun l => by simp [charTok]) (by decide)
  exact List.all_eq_true.mpr fun c hc => decide_eq_true (h c hc)

theorem foldSentE_some_units (tok : FTokenizer) (max_tokens overlap_tokens : Nat) :
    ∀ (ss : List (List Char)) (st st' : ChunkState),
      foldSentE tok max_tokens overlap_tokens ss st = some st' →
      ∀ s ∈ ss, tok.encode s ≠ none := by
  intro ss
  induction ss with
  | nil => intro st st' h s hs; exact absurd hs (List.not_mem_nil s)
  | cons s0 ss ih =>
    intro st st' h s hs
    cases hp : processSentenceE tok max_tokens overlap_tokens st s0 with
    | none => rw [foldSentE, hp] at h; exact Option.noConfusion h
    | some st2 =>
      rw [foldSentE, hp] at h
      rcases List.mem_cons.mp hs with heq | hmem
      · subst heq
        intro henc
        unfold processSentenceE at hp
        rw [henc] at hp
        exact Option.noConfusion hp
      · exact ih st2 st' h s hmem

theorem chunkLoopE_some_units (tok : FTokenizer) (sents : List Char → List (List Char))
    (max_tokens overlap_tokens : Nat) :
    ∀ (segments : List (SegKind × List Char)) (st st' : ChunkState),
      chunkLoopE tok sents max_tokens overlap_tokens segments st = some st' →
      ∀ u ∈ unitsOf sents segments, tok.encode u ≠ none := by
  intro segments
  induction segments with
  | nil => intro st st' h u hu; exact absurd hu (by simp [unitsOf])
  | cons seg rest ih =>
    intro st st' h u hu
    obtain ⟨k, s⟩ := seg
    cases k with
    | code =>
      cases hp : processCodeE tok max_tokens st s with
      | none => rw [chunkLoopE, hp] at h; exact Option.noConfusion h
      | some st2 =>
        rw [chunkLoopE, hp] at h
        simp only [unitsOf, List.map_cons, List.flatten_cons] at hu
        rcases List.mem_append.mp hu with hin | hin
        · rw [List.mem_singleton.mp hin]
          intro henc
          unfold processCodeE at hp
          rw [henc] at hp
          exact Option.noConfusion hp
        · exact ih st2 st' h u (by simpa [unitsOf] using hin)
    | text =>
      cases hf : foldSentE tok max_tokens overlap_tokens (sents s) st with
      | none => rw [chunkLoopE, hf] at h; exact Option.noConfusion h
      | some st2 =>
        rw [chunkLoopE, hf] at h
        simp only [unitsOf, List.map_cons, List.flatten_cons] at hu
        rcases List.mem_append.mp hu with hin | hin
        · exact foldSentE_some_units tok max_tokens overlap_tokens (sents s) st st2 hf u hin
        · exact ih st2 st' h u (by simpa [unitsOf] using hin)

/-- C6 amended: a Token Counter encode failure on any unit makes
`chunk_segments` raise — the whole call returns no chunks at all — and
`segment_text_file`'s catch-all handler then logs and abandons the entire
document, leaving the output store untouched: the failing unit is not
treated as zero tokens, its text is not kept, and the rest of the document's
content is dropped from that run's output as well. -/
theorem c6_amended (tok : FTokenizer) (sents : List Char → List (List Char)) :
    (∀ (max_tokens overlap_tokens : Nat) (segments : List (SegKind × List Char))
        (u : List Char), u ∈ unitsOf sents segments → tok.encode u = none →
        chunkSegmentsE tok sents max_tokens overlap_tokens segments = none) ∧
    (∀ (base docText : List Char) (fs : FileStore) (u : List Char),
        u ∈ unitsOf sents (preprocess_text docText) → tok.encode u = none →
        segment_text_file tok sents base docText fs = fs) := by
  have part1 : ∀ (max_tokens overlap_tokens : Nat) (segments : List (SegKind × List Char))
      (u : List Char), u ∈ unitsOf sents segments → tok.encode u = none →
      chunkSegmentsE tok sents max_tokens overlap_tokens segments = none := by
    intro max_tokens overlap_tokens segments u hu henc
    unfold chunkSegmentsE
    cases hl : chunkLoopE tok sents max_tokens overlap_tokens segments ⟨[], [], 0⟩ with
    | none => rfl
    | some final =>
      exact absurd henc
        (chunkLoopE_some_units tok sents max_tokens overlap_tokens segments _ final hl u hu)
  refine ⟨part1, ?_⟩
  intro base docText fs u hu henc
  unfold segment_text_file
  rw [part1 3000 200 (preprocess_text docText) u hu henc]

/-- C6 witness: a concrete failing unit aborts the run and leaves a
pre-populated store unchanged. -/
theorem c6_witness :
    chunkSegmentsE ftokC6 sentsC6 10 0 [(SegKind.text, ['q'])] = none ∧
    segment_text_file ftokC6 sentsC6 ['b'] ['q'] [(['k'], ['w'])] = [(['k'], ['w'])] := by
  have h := c6_amended ftokC6 sentsC6
  constructor
  · exact h.1 10 0 [(SegKind.text, ['q'])] ['b', 'a', 'd'] (by decide) (by decide)
  · refine h.2 ['b'] ['q'] [(['k'], ['w'])] ['b', 'a', 'd'] ?_ (by decide)
    have hp : preprocess_text ['q'] = [(SegKind.text, ['q'])] := by
      rw [preprocess_text]
      rfl
    rw [hp]
    decide

theorem dropWhileLenLe (l : List Char) :
    (l.dropWhile Char.isWhitespace).length ≤ l.length := by
  induction l with
  | nil => simp
  | cons c t ih =>
    rw [List.dropWhile_cons]
    by_cases hc : Char.isWhitespace c
    · rw [if_pos hc]
      exact Nat.le_trans ih (Nat.le_succ _)
    · rw [if_neg hc]

theorem dropWhileEqSelf (l : List Char)
    (h : (l.dropWhile Char.isWhitespace).length = l.length) :
    l.dropWhile Char.isWhitespace = l := by
  cases l with
  | nil => rfl
  | cons c t =>
    rw [List.dropWhile_cons] at h ⊢
    by_cases hc : Char.isWhitespace c
    · rw [if_pos hc] at h
      have := dropWhileLenLe t
      simp only [List.length_cons] at h
      omega
    · rw [if_neg hc]

theorem headNotWs {l : List Char} (h : l.dropWhile Char.isWhitespace = l)
    {c : Char} {t : List Char} (hct : l = c :: t) : Char.isWhitespace c = false := by
  subst hct
  rw [List.dropWhile_cons] at h
  by_cases hc : Char.isWhitespace c
  · rw [if_pos hc] at h
    have h1 := dropWhileLenLe t
    have h2 := congrArg List.length h
    simp only [List.length_cons] at h2
    omega
  · exact Bool.of_not_eq_true hc

theorem stripSelf {u : List Char} (h : strip u = u) :
    u.dropWhile Char.isWhitespace = u ∧
    u.reverse.dropWhile Char.isWhitespace = u.reverse := by
  unfold strip at h
  have hlen := congrArg List.length h
  have e1 := dropWhileLenLe ((u.dropWhile Char.isWhitespace).reverse)
  have e2 := dropWhileLenLe u
  simp only [List.length_reverse] at hlen e1
  have h1 : u.dropWhile Char.isWhitespace = u := dropWhileEqSelf u (by omega)
  rw [h1] at h
  refine ⟨h1, ?_⟩
  have h2 := congrArg List.reverse h
  rw [List.reverse_reverse] at h2
  exact h2

theorem occursIn_dropWhile (u : List Char) (hne : u ≠ [])
    (hhead : ∀ c t, u = c :: t → Char.isWhitespace c = false) :
    ∀ l, occursIn u l → occursIn u (l.dropWhile Char.isWhitespace) := by
  intro l
  induction l with
  | nil =>
    intro h
    obtain ⟨p, q, hpq⟩ := h
    rw [List.append_eq_nil, List.append_eq_nil] at hpq
    exact absurd hpq.1.2 hne
  | cons c rest ih =>
    intro h
    by_cases hc : Char.isWhitespace c
    · rw [List.dropWhile_cons, if_pos hc]
      apply ih
      obtain ⟨p, q, hpq⟩ := h
      cases p with
      | nil =>
        simp only [List.nil_append] at hpq
        cases u with
        | nil => exact absurd rfl hne
        | cons d u' =>
          simp only [List.cons_append] at hpq
          injection hpq with hd htail
          have hws := hhead d u' rfl
          rw [hd] at hws
          rw [hws] at hc
          exact absurd hc (by simp)
      | cons e p' =>
        simp only [List.cons_append] at hpq
        injection hpq with he htail
        exact ⟨p', q, htail⟩
    · rw [List.dropWhile_cons, if_neg hc]
      exact h

theorem occursIn_reverse (u l : List Char) (h : occursIn u l) :
    occursIn u.reverse l.reverse := by
  obtain ⟨p, q, hpq⟩ := h
  refine ⟨q.reverse, p.reverse, ?_⟩
  rw [← hpq]
  simp [List.reverse_append, List.append_assoc]

theorem occursIn_strip {u l : List Char} (hne : u ≠ []) (hstr : strip u = u)
    (h : occursIn u l) : occursIn u (strip l) := by
  obtain ⟨h1, h2⟩ := stripSelf hstr
  have hhead : ∀ c t, u = c :: t → Char.isWhitespace c = false :=
    fun c t hct => headNotWs h1 hct
  have hlast : ∀ c t, u.reverse = c :: t → Char.isWhitespace c = false :=
    fun c t hct => headNotWs h2 hct
  have hner : u.reverse ≠ [] := by simpa using hne
  have s1 := occursIn_dropWhile u hne hhead l h
  have s2 := occursIn_reverse _ _ s1
  have s3 := occursIn_dropWhile u.reverse hner hlast _ s2
  have s4 := occursIn_reverse _ _ s3
  rw [List.reverse_reverse] at s4
  simpa [strip] using s4

theorem occursIn_ne_nil {u m : List Char} (h : occursIn u m) (hne : u ≠ []) : m ≠ [] := by
  obtain ⟨p, q, hpq⟩ := h
  intro habs
  rw [habs, List.append_eq_nil, List.append_eq_nil] at hpq
  exact hne hpq.1.2

theorem occursIn_append_right {u l : List Char} (x : List Char) (h : occursIn u l) :
    occursIn u (l ++ x) := by
  obtain ⟨p, q, hpq⟩ := h
  exact ⟨p, q ++ x, by rw [← hpq]; simp [List.append_assoc]⟩

theorem occursIn_cons_self (x : List Char) (c : Char) (s : List Char) :
    occursIn s (x ++ c :: s) := ⟨x ++ [c], [], by simp⟩

theorem placed_processCode (tok : Tokenizer) (max_tokens : Nat) (st : ChunkState)
    (seg : List Char) {u : List Char} (hne : u ≠ []) (hstr : strip u = u)
    (h : placedIn u st) : placedIn u (processCode tok max_tokens st seg) := by
  unfold processCode
  by_cases hcond : max_tokens < st.current_tokens + (tok.encode seg).length ∧
      st.current_chunk ≠ []
  · rw [if_pos hcond]
    rcases h with ⟨c, hcmem, hocc⟩ | hocc
    · exact Or.inl ⟨c, List.mem_append_left _ hcmem, hocc⟩
    · exact Or.inl ⟨⟨strip st.current_chunk, st.current_tokens⟩,
        List.mem_append_right _ (List.mem_singleton_self _), occursIn_strip hne hstr hocc⟩
  · rw [if_neg hcond]
    rcases h with ⟨c, hcmem, hocc⟩ | hocc
    · exact Or.inl ⟨c, hcmem, hocc⟩
    · exact Or.inr (occursIn_append_right _ hocc)

theorem placed_processSentence (tok : Tokenizer) (max_tokens overlap_tokens : Nat)
    (st : ChunkState) (s : List Char) {u : List Char} (hne : u ≠ []) (hstr : strip u = u)
    (h : placedIn u st) :
    placedIn u (processSentence tok max_tokens overlap_tokens st s) := by
  unfold processSentence
  by_cases hcond : max_tokens < st.current_tokens + (tok.encode s).length ∧
      st.current_chunk ≠ []
  · rw [if_pos hcond]
    rcases h with ⟨c, hcmem, hocc⟩ | hocc
    · exact Or.inl ⟨c, List.mem_append_left _ hcmem, hocc⟩
    · exact Or.inl ⟨⟨strip st.current_chunk, st.current_tokens⟩,
        List.mem_append_right _ (List.mem_singleton_self _), occursIn_strip hne hstr hocc⟩
  · rw [if_neg hcond]
    rcases h with ⟨c, hcmem, hocc⟩ | hocc
    · exact Or.inl ⟨c, hcmem, hocc⟩
    · exact Or.inr (occursIn_append_right _ hocc)

theorem placed_new_code (tok : Tokenizer) (max_tokens : Nat) (st : ChunkState)
    (seg : List Char) : placedIn seg (processCode tok max_tokens st seg) := by
  unfold processCode
  by_cases hcond : max_tokens < st.current_tokens + (tok.encode seg).length ∧
      st.current_chunk ≠ []
  · rw [if_pos hcond]
    exact Or.inr ⟨['\n'], [], by simp⟩
  · rw [if_neg hcond]
    exact Or.inr (occursIn_cons_self _ _ _)

theorem placed_new_sentence (tok : Tokenizer) (max_tokens overlap_tokens : Nat)
    (st : ChunkState) (s : List Char) :
    placedIn s (processSentence tok max_tokens overlap_tokens st s) := by
  unfold processSentence
  by_cases hcond : max_tokens < st.current_tokens + (tok.encode s).length ∧
      st.current_chunk ≠ []
  · rw [if_pos hcond]
    exact Or.inr (occursIn_cons_self _ _ _)
  · rw [if_neg hcond]
    exact Or.inr (occursIn_cons_self _ _ _)

theorem placed_foldSent (tok : Tokenizer) (max_tokens overlap_tokens : Nat) :
    ∀ (ss : List (List Char)) (st : ChunkState) (u : List Char), u ≠ [] → strip u = u →
      (placedIn u st ∨ u ∈ ss) →
      placedIn u (ss.foldl (processSentence tok max_tokens overlap_tokens) st) := by
  intro ss
  induction ss with
  | nil =>
    intro st u hne hstr h
    rcases h with h | h
    · exact h
    · exact absurd h (List.not_mem_nil u)
  | cons s ss ih =>
    intro st u hne hstr h
    rw [List.foldl_cons]
    rcases h with h | h
    · exact ih _ u hne hstr
        (Or.inl (placed_processSentence tok max_tokens overlap_tokens st s hne hstr h))
    · rcases List.mem_cons.mp h with heq | hmem
      · subst heq
        exact ih _ u hne hstr
          (Or.inl (placed_new_sentence tok max_tokens overlap_tokens st u))
      · exact ih _ u hne hstr (Or.inr hmem)

theorem placed_chunkLoop (tok : Tokenizer) (sents : List Char → List (List Char))
    (max_tokens overlap_tokens : Nat) :
    ∀ (segments : List (SegKind × List Char)) (st : ChunkState) (u : List Char),
      u ≠ [] → strip u = u →
      (placedIn u st ∨ u ∈ unitsOf sents segments) →
      placedIn u (segments.foldl (chunkStep tok sents max_tokens overlap_tokens) st) := by
  intro segments
  induction segments with
  | nil =>
    intro st u hne hstr h
    rcases h with h | h
    · exact h
    · exact absurd h (by simp [unitsOf])
  | cons seg rest ih =>
    intro st u hne hstr h
    obtain ⟨k, s⟩ := seg
    rw [List.foldl_cons]
    cases k with
    | code =>
      rcases h with h | h
      · exact ih _ u hne hstr (Or.inl (placed_processCode tok max_tokens st s hne hstr h))
      · simp only [unitsOf, List.map_cons, List.flatten_cons] at h
        rcases List.mem_append.mp h with hin | hin
        · rw [List.mem_singleton.mp hin]
          exact ih _ s (List.mem_singleton.mp hin ▸ hne) (List.mem_singleton.mp hin ▸ hstr)
            (Or.inl (placed_new_code tok max_tokens st s))
        · exact ih _ u hne hstr (Or.inr (by simpa [unitsOf] using hin))
    | text =>
      rcases h with h | h
      · exact ih _ u hne hstr
          (Or.inl (placed_foldSent tok max_tokens overlap_tokens (sents s) st u hne hstr
            (Or.inl h)))
      · simp only [unitsOf, List.map_cons, List.flatten_cons] at h
        rcases List.mem_append.mp h with hin | hin
        · exact ih _ u hne hstr
            (Or.inl (placed_foldSent tok max_tokens overlap_tokens (sents s) st u hne hstr
              (Or.inr hin)))
        · exact ih _ u hne hstr (Or.inr (by simpa [unitsOf] using hin))

/-- C3 amended: chunk assembly never splits or truncates a unit — every unit
whose text is nonempty and free of leading/trailing whitespace (as sentences
and fenced verbatim segments are) occurs whole inside at least one emitted
chunk, including units whose own token count exceeds `max_tokens`, which are
appended as-is; overlap carry can additionally duplicate a unit's text into
the following chunk, so `exactly one` does not hold. -/
theorem c3_amended (tok : Tokenizer) (sents : List Char → List (List Char))
    (max_tokens overlap_tokens : Nat) (segments : List (SegKind × List Char))
    (hnice : ∀ u ∈ unitsOf sents segments, u ≠ [] ∧ strip u = u) :
    ∀ u ∈ unitsOf sents segments,
      ∃ c ∈ chunk_segments tok sents max_tokens overlap_tokens segments,
        occursIn u c.text := by
  intro u hu
  obtain ⟨hne, hstr⟩ := hnice u hu
  have hp := placed_chunkLoop tok sents max_tokens overlap_tokens segments
    ⟨[], [], 0⟩ u hne hstr (Or.inr hu)
  unfold chunk_segments
  dsimp only
  rcases hp with ⟨c, hcmem, hocc⟩ | hocc
  · split
    · exact ⟨c, hcmem, hocc⟩
    · exact ⟨c, List.mem_append_left _ hcmem, hocc⟩
  · have hzocc := occursIn_strip hne hstr hocc
    have hnz := occursIn_ne_nil hzocc hne
    split
    next hcontra => exact absurd hcontra hnz
    next =>
      exact ⟨_, List.mem_append_right _ (List.mem_singleton_self _), hzocc⟩

/-- C3 witness: the unit `cd` of the counterexample run occurs whole in an
emitted chunk. -/
theorem c3_witness :
    ∃ c ∈ chunk_segments charTok sentsC3 4 3 segsT, occursIn ['c', 'd'] c.text :=
  c3_amended charTok sentsC3 4 3 segsT (by decide) ['c', 'd'] (by decide)
